import Mathlib

/-! Verification of the fastdbfs concurrent transfer engine (`fastdbfs/dbfs.py`,
`fastdbfs/swarm.py`, `fastdbfs/fileinfo.py`) against its natural-language
specification.  Python byte strings are modelled as `List Nat`, Python text
strings as `List Char` (Python `str` comparison is lexicographic on code
points, which is exactly the `List.Lex (· < ·)` linear order that Mathlib
installs on `List Char`).  Fallible Python code is modelled with `Except`.
-/

/-- A remote POSIX path, as the list of characters of the Python string. -/
abbrev FPath : Type := List Char

/-! Part: `DBFS._async_control` (dbfs.py lines 131-155): the retry loop

Each iteration of the `while True` loop issues the request callback once and
observes one outcome.  We model the successive outcomes of the callback as a
list that the loop consumes from the front:
* a `RateError` (the `x-envoy-ratelimited` header) only sets `wait_until`
  and loops again without touching `retries`;
* an `OSError` is re-raised when `retries > max_retries` and otherwise
  sleeps, increments `retries` and loops;
* any other exception is re-raised at once;
* a successful callback returns its value.
The sleeps and the semaphore are timing behaviour and are not modelled. -/

namespace Control

inductive Outcome where
  | success (v : Nat)
  | rate
  | transient
  | other
deriving DecidableEq, Repr

/-- Result of running the loop: a returned value together with the final
value of the `retries` counter, an exception surfaced to the caller together
with the value of `retries` at that moment, or the outcome trace ran out
while the loop would have kept going. -/
inductive RunResult where
  | ok (v : Nat) (retries : Nat)
  | raisedTransient (retries : Nat)
  | raisedOther (retries : Nat)
  | outOfTrace (retries : Nat)
deriving DecidableEq, Repr

/-- Shallow embedding of `DBFS._async_control`. -/
def control (maxRetries : Nat) : List Outcome → Nat → RunResult
  | [], retries => .outOfTrace retries
  | o :: rest, retries =>
    match o with
    | .success v => .ok v retries
    | .rate => control maxRetries rest retries
    | .transient =>
      if retries > maxRetries then .raisedTransient retries
      else control maxRetries rest (retries + 1)
    | .other => .raisedOther retries

end Control

/-! Part: `AlwaysComparable.__lt__` (swarm.py lines 8-20)

Task keys are `None`, Python ints or Python strings.  The comparator checks,
in this order: `bv is None`, `av is None`, same type, `av` an int, `bv` an
int, and raises otherwise (that last branch is unreachable for the three
value kinds modelled here, so the embedding is total). -/

namespace SwarmCmp

inductive PVal where
  | vnone
  | vint (n : Int)
  | vstr (s : List Char)
deriving DecidableEq, Repr

/-- Shallow embedding of `AlwaysComparable.__lt__ (a, b)`; Python string
comparison is the lexicographic order on the code-point lists. -/
def acLt (av bv : PVal) : Bool :=
  match bv with
  | .vnone => true
  | _ =>
    match av with
    | .vnone => false
    | .vint a =>
      match bv with
      | .vint b => decide (a < b)
      | _ => true
    | .vstr s =>
      match bv with
      | .vstr t => decide (s < t)
      | _ => false

end SwarmCmp

/-! Part: `FileInfo` and predicate evaluation (fileinfo.py lines 8-110)

Compiled regular expressions are abstracted as a pair of boolean functions
(`fullmatch` and `search` on a text).  Predicate values are either an int or
a compiled pattern; `None` (inactive) is the `Option` layer in the bundle.
The embedding reproduces the call-site behaviour of CPython faithfully,
including the exceptions:
* `_check_predicate__iname` and `_check_predicate__re` are declared with
  two parameters but `check_predicates` always calls `method(value, relpath)`
  with three (counting `self`), a `TypeError`;
* `_check_predicate__name` runs `pattern.fullmatch(self.basename(), _)`,
  passing `relpath` (a `str` or `None`) as the integer `pos` argument of
  `fullmatch`, a `TypeError` for either;
* `_check_predicate__wholere`/`__iwholere` pass the *bound method*
  `self.basename` (no parentheses) to `pattern.search` when `relpath` is
  `None`, a `TypeError`;
* an int value where a pattern is needed gives `AttributeError`
  (`int` has no `fullmatch`/`search`), a pattern value where an int is
  needed gives `TypeError` on the arithmetic comparison. -/

inductive PyErr where
  | nameError
  | typeError
  | attributeError
  | corruptedCopy
deriving DecidableEq, Repr

structure FileInfo where
  is_dir : Bool
  size : Int
  mtime : Int
  abspath : List Char
deriving DecidableEq, Repr

/-- Python `posixpath.basename`: everything after the last slash. -/
def posixBasename (p : List Char) : List Char :=
  p.foldl (fun acc c => if c = '/' then [] else acc ++ [c]) []

def FileInfo.basename (fi : FileInfo) : List Char :=
  posixBasename fi.abspath

/-- An abstract compiled regular expression. -/
structure RePat where
  full : List Char → Bool
  search : List Char → Bool

inductive PredVal where
  | num (n : Int)
  | pat (p : RePat)

inductive PredKey where
  | newer_than
  | older_than
  | max_size
  | min_size
  | name
  | iname
  | re
  | ire
  | iwholere
  | wholere
deriving DecidableEq, Repr

/-- One call `method(value, relpath)` of a `_check_predicate__<key>` method,
with the exceptional behaviour described above. -/
def callPredicate (fi : FileInfo) (k : PredKey) (v : PredVal)
    (relpath : Option (List Char)) : Except PyErr Bool :=
  match k with
  | .newer_than =>
    match v with
    | .num n => .ok (decide (fi.mtime ≥ n * 1000))
    | .pat _ => .error .typeError
  | .older_than =>
    match v with
    | .num n => .ok (decide (fi.mtime ≤ n * 1000))
    | .pat _ => .error .typeError
  | .max_size =>
    if fi.is_dir then .ok true
    else
      match v with
      | .num n => .ok (decide (fi.size ≤ n))
      | .pat _ => .error .typeError
  | .min_size =>
    if fi.is_dir then .ok true
    else
      match v with
      | .num n => .ok (decide (fi.size ≥ n))
      | .pat _ => .error .typeError
  | .name =>
    match v with
    | .num _ => .error .attributeError
    | .pat _ => .error .typeError
  | .iname => .error .typeError
  | .re => .error .typeError
  | .ire =>
    match v with
    | .num _ => .error .attributeError
    | .pat p => .ok (p.search fi.basename)
  | .iwholere =>
    match v with
    | .num _ => .error .attributeError
    | .pat p =>
      match relpath with
      | none => .error .typeError
      | some rp => .ok (p.search rp)
  | .wholere =>
    match v with
    | .num _ => .error .attributeError
    | .pat p =>
      match relpath with
      | none => .error .typeError
      | some rp => .ok (p.search rp)

/-- A predicate bundle, in iteration order: the flag is the `exclude_`
marker parsed off the key. -/
abbrev PredBundle := List ((Bool × PredKey) × Option PredVal)

/-- Shallow embedding of `FileInfo.check_predicates`. -/
def check_predicates (fi : FileInfo) (relpath : Option (List Char)) :
    PredBundle → Except PyErr Bool
  | [] => .ok true
  | ((excl, k), v) :: rest =>
    match v with
    | none => check_predicates fi relpath rest
    | some v =>
      match callPredicate fi k v relpath with
      | .error e => .error e
      | .ok m =>
        if excl then
          if m then .ok false else check_predicates fi relpath rest
        else
          if m then check_predicates fi relpath rest else .ok false

/-! Part: Requests sent by the upload / move / delete operations -/

inductive ErrCode where
  | resourceAlreadyExists
  | resourceDoesNotExist
  | otherCode
deriving DecidableEq, Repr

inductive Req where
  | put (path : FPath) (contents : List Nat) (overwrite : Bool)
  | create (path : FPath) (overwrite : Bool)
  | addBlock (handle : Nat) (data : List Nat)
  | close (handle : Nat)
  | getStatus (path : FPath)
  | delete (path : FPath) (recursive : Bool)
  | move (src dst : FPath)
deriving DecidableEq, Repr

/-! Part: `DBFS._async_put` (dbfs.py lines 288-315) and
`DBFS._async_stream_put_from_file` (lines 335-363)

File contents are modelled as the byte list handed to the API (the base64
step is an injective encoding and is elided).  The local read loop of the
small-file path always yields the whole file here (short reads only retry).

In the source, the `size > chunk_size` branch of `_async_put` reads
`return await _async_stream_put_from_file(session, infile, target, ...)` —
the bare name, without `self.`.  No module-level function of that name
exists, so the branch raises `NameError` before issuing any request. -/
def async_put (content : List Nat) (target : FPath) (overwrite : Bool)
    (chunk_size : Nat) : Except PyErr (List Req) :=
  if content.length > chunk_size then .error .nameError
  else .ok [Req.put target content overwrite]

/-- Successive `infile.read(n)` results until EOF, with an explicit fuel
that the wrapper `chunksOf` instantiates with the file length (enough fuel,
since every productive iteration consumes at least one byte). -/
def readChunksAux (fuel n : Nat) : List Nat → List (List Nat) :=
  match fuel with
  | 0 => fun _ => []
  | fuel + 1 => fun l =>
    match l with
    | [] => []
    | a :: rest =>
      if n = 0 then []
      else List.take n (a :: rest) :: readChunksAux fuel n (List.drop n (a :: rest))

/-- The chunks read by the `while True: chunk = infile.read(chunk_size)`
loop of `_async_stream_put_from_file` (`read(0)` returns the empty bytes
object, so the loop breaks at once when `chunk_size = 0`). -/
def chunksOf (n : Nat) (l : List Nat) : List (List Nat) :=
  readChunksAux l.length n l

/-- Discriminator for delete requests. -/
def Req.isDelete : Req → Bool
  | .delete _ _ => true
  | _ => false

/-- Shallow embedding of `_async_stream_put_from_file` on a run where
`create` yields `handle` and every `add-block` and `close` succeed, and the
final `get-status` re-fetch reports `reported` bytes.  On a size mismatch
the method raises the corruption error; its `except` handler then runs
`try: await self._async_rm(target)` — but `_async_rm(self, session, path)`
requires the `session` argument, so this call raises `TypeError` while
binding arguments, before any HTTP request is formed, and the bare
`except: pass` swallows it: no delete request is ever issued. -/
def streamPut (content : List Nat) (chunk_size : Nat) (target : FPath)
    (overwrite : Bool) (handle : Nat) (reported : Nat) :
    List Req × Except PyErr Unit :=
  let blocks := chunksOf chunk_size content
  let reqs := Req.create target overwrite ::
    (blocks.map (Req.addBlock handle) ++ [Req.close handle, Req.getStatus target])
  if reported = (blocks.map List.length).sum then (reqs, .ok ())
  else (reqs, .error .corruptedCopy)

/-! Part: `DBFS._async_filetest` (dbfs.py lines 204-220) -/

/-- Shallow embedding of `_async_filetest`, given the result of the inner
`get-status` call: applies the check callback to an existing entry, maps the
`RESOURCE_DOES_NOT_EXIST` API error to `False` and re-raises any other
error. -/
def async_filetest (statusRes : Except ErrCode FileInfo)
    (cb : FileInfo → Bool) : Except ErrCode Bool :=
  match statusRes with
  | .ok fi => .ok (cb fi)
  | .error c => if c = .resourceDoesNotExist then .ok false else .error c

/-- Embedding of `DBFS.filetest_d` (lines 216-217).  Its body is
`self._filetest(path, lambda fi: fi.is_dir())`, but the class defines no
attribute `_filetest` (only `_async_filetest`), so the attribute lookup
raises `AttributeError` before any request is made; the body also lacks a
`return` statement.  `filetest_e` and `filetest_f` (lines 213-214, 219-220)
call the same missing attribute. -/
def filetest_d (_path : FPath) : Except PyErr Bool :=
  .error .attributeError

def filetest_e (_path : FPath) : Except PyErr Bool :=
  .error .attributeError

def filetest_f (_path : FPath) : Except PyErr Bool :=
  .error .attributeError

/-! Part: `DBFS._async_mv` (dbfs.py lines 261-282)

The environment records the backend's reactions: the outcome of the first
`move`, of the `get-status` on the target (used by the inner
`_async_filetest`), of the `delete` and of the retried `move` (`none`
standing for success).  The function returns the request trace together
with the outcome (`none` = success). -/

structure MvEnv where
  mv1 : Option ErrCode
  status : Except ErrCode FileInfo
  rmErr : Option ErrCode
  mv2 : Option ErrCode

def async_mv (src target : FPath) (overwrite : Bool) (env : MvEnv) :
    List Req × Option ErrCode :=
  match env.mv1 with
  | none => ([Req.move src target], none)
  | some e =>
    if e = .resourceAlreadyExists then
      match async_filetest env.status (fun fi => !fi.is_dir) with
      | .error e2 => ([Req.move src target, Req.getStatus target], some e2)
      | .ok b =>
        if b then
          match env.rmErr with
          | some e3 =>
            ([Req.move src target, Req.getStatus target, Req.delete target false],
              some e3)
          | none =>
            ([Req.move src target, Req.getStatus target, Req.delete target false,
              Req.move src target], env.mv2)
        else ([Req.move src target, Req.getStatus target], some e)
    else ([Req.move src target], some e)

/-! Part: `DBFS.rm` and the cwd repair (dbfs.py lines 249-259) -/

/-- Python `posixpath.split(p)[0]`: the text up to the last slash, with trailing
slashes stripped unless the head consists only of slashes. -/
def posixSplitHead (p : List Char) : List Char :=
  let head := (p.reverse.dropWhile (fun c => c ≠ '/')).reverse
  if head ≠ [] ∧ ¬ head.all (fun c => c = '/') then
    (head.reverse.dropWhile (fun c => c = '/')).reverse
  else head

/-- The cwd update at the end of `DBFS.rm`, given the already-resolved
removed path: `cwd` is replaced by `posixpath.split(path)[0]` when it is not
the root and either equals the removed path or extends it across a slash
(`cwd.startswith(path) and cwd[len(path)] == "/"`). -/
def rmFixCwd (cwd path : List Char) : List Char :=
  if cwd = ['/'] then cwd
  else if cwd = path ∨ (path <+: cwd ∧ cwd[path.length]? = some '/') then
    posixSplitHead path
  else cwd

/-! Part: `DBFS._async_find` (dbfs.py lines 492-563)

The recursive ordered traversal.  The remote tree is the association list
`ListingMap` from a directory abspath to the `(abspath, is_dir)` pairs its
`list` call returns (a directory absent from the table yields an empty or
failed listing — both leave `fis` falsy in the control loop, with identical
behaviour).  The combined verdict of `check_predicates` and the external
filter callback is abstracted as one boolean function `g` of the child
abspath; the `filter` helper writes it into the `good` flag of each new
batch and touches nothing else.

Concurrency: worker tasks only turn a queued directory into its listing
response, so the only scheduling freedom is the order in which outstanding
listing responses reach the control loop.  `findStep st d` processes the
response for directory `d` (a no-op unless `d` is outstanding), and a run
is a fold over an arbitrary schedule of response arrivals, which
over-approximates every real interleaving of the swarm. -/

/-- Strict lexicographic order on paths: Python string `<`. -/
def pathLt (a b : FPath) : Prop := List.Lex (· < ·) a b

/-- Reflexive closure of `pathLt`: the sort order of `pending.sort`. -/
def pathLe (a b : FPath) : Prop := pathLt a b ∨ a = b

instance : DecidableRel pathLt := fun a b =>
  inferInstanceAs (Decidable (List.Lex (· < ·) a b))

instance : DecidableRel pathLe := fun _ _ => Or.decidable

/-- One `FindEntry` of the source: metadata plus traversal status. -/
structure FindEntry where
  path : FPath
  is_dir : Bool
  good : Bool
  done : Bool
deriving DecidableEq, Repr

abbrev ListingMap := List (FPath × List (FPath × Bool))

/-- The children a `list` call on `d` reports. -/
def lsChildren (ls : ListingMap) (d : FPath) : List (FPath × Bool) :=
  match ls.find? (fun p => p.1 = d) with
  | some p => p.2
  | none => []

/-- Predicate that `c` is a well-formed child path of directory `d`: it extends `d` with a
slash and a nonempty, slash-free name segment. -/
def childOk (d c : FPath) : Bool :=
  decide ((d ++ ['/']) <+: c) && decide (d.length + 1 < c.length) &&
    decide ('/' ∉ c.drop (d.length + 1))

/-- Well-formed listing table: every reported child path extends the listed
directory by one slash-free name, and child paths are unique per listing. -/
def LsWf (ls : ListingMap) : Prop :=
  ∀ e ∈ ls, (∀ c ∈ e.2, childOk e.1 c.1 = true) ∧ (e.2.map Prod.fst).Nodup

instance (ls : ListingMap) : Decidable (LsWf ls) := by
  unfold LsWf
  infer_instance

/-- The state of the `control()` coroutine: the sorted `pending` list, the
set of directories whose listing has been requested but whose response has
not yet been processed, and the entries already passed to `update_cb`. -/
structure FindState where
  pending : List FindEntry
  tasks : List FPath
  emitted : List FindEntry
deriving Repr

/-- Embedding of `for e in pending: if e.fi.abspath() == key: e.done = True; break`. -/
def markDone : List FindEntry → FPath → List FindEntry
  | [], _ => []
  | e :: es, k =>
    if e.path = k then { e with done := true } :: es
    else e :: markDone es k

/-- Pointwise form of `markDone` (they agree when paths are unique). -/
def setDone (k : FPath) (e : FindEntry) : FindEntry :=
  if e.path = k then { e with done := true } else e

/-- The key relation of `pending.sort(key=lambda x: x.fi.abspath())`. -/
def entryLe (a b : FindEntry) : Prop := pathLe a.path b.path

instance : DecidableRel entryLe := fun a b =>
  inferInstanceAs (Decidable (pathLe a.path b.path))

instance : IsTotal FindEntry entryLe :=
  ⟨fun a b => by
    have h3 : pathLt a.path b.path ∨ a.path = b.path ∨ pathLt b.path a.path :=
      trichotomous_of (List.Lex (· < ·)) a.path b.path
    unfold entryLe pathLe
    rcases h3 with h | h | h
    · exact Or.inl (Or.inl h)
    · exact Or.inl (Or.inr h)
    · exact Or.inr (Or.inl h)⟩

instance : IsTrans FindEntry entryLe :=
  ⟨fun a b c h1 h2 => by
    unfold entryLe pathLe at h1 h2 ⊢
    rcases h1 with h1 | h1
    · rcases h2 with h2 | h2
      · exact Or.inl (show pathLt a.path c.path from
          trans_of (List.Lex (· < ·)) h1 h2)
      · exact Or.inl (h2 ▸ h1)
    · exact h1 ▸ h2⟩

instance : IsAntisymm (FPath × Bool) (fun x y => pathLt x.1 y.1) :=
  ⟨fun a b h1 h2 => by
    have h3 : pathLt a.1 a.1 := trans_of (List.Lex (· < ·)) h1 h2
    have h4 : ¬ pathLt a.1 a.1 := irrefl_of (List.Lex (· < ·)) a.1
    exact absurd h3 h4⟩

/-- The batch of new entries built from a listing response
(`new = [FindEntry(fi, done=not fi.is_dir()) for fi in fis]`, with the
`filter` helper then writing the predicate/filter verdict `g` into
`good`). -/
def findNew (ls : ListingMap) (g : FPath → Bool) (d : FPath) : List FindEntry :=
  (lsChildren ls d).map (fun c => FindEntry.mk c.1 c.2 (g c.1) (!c.2))

/-- The `pending` list after marking the responder done and appending the batch. -/
def findMid (ls : ListingMap) (g : FPath → Bool) (st : FindState) (d : FPath) :
    List FindEntry :=
  markDone st.pending d ++ findNew ls g d

/-- The `pending` list after the `if fis:` block: left alone on an empty (or failed)
listing, extended and re-sorted by abspath otherwise. -/
def findSorted (ls : ListingMap) (g : FPath → Bool) (st : FindState)
    (d : FPath) : List FindEntry :=
  if lsChildren ls d = [] then findMid ls g st d
  else (findMid ls g st d).insertionSort entryLe

/-- The directory children for which a listing task is enqueued — note the
verdict `g` plays no part. -/
def findNewTasks (ls : ListingMap) (d : FPath) : List FPath :=
  ((lsChildren ls d).filter (fun c => c.2)).map Prod.fst

/-- One iteration of the `while pending:` loop, processing the listing
response for directory `d`: mark the matching pending entry done; if the
listing is non-empty, append the new batch (files already done), re-sort
by abspath, and queue a listing for each directory child; finally emit the
maximal done prefix of `pending`. -/
def findStep (ls : ListingMap) (g : FPath → Bool) (st : FindState)
    (d : FPath) : FindState :=
  if d ∈ st.tasks then
    { pending := (findSorted ls g st d).dropWhile (fun e => e.done),
      tasks := st.tasks.erase d ++ findNewTasks ls d,
      emitted := st.emitted ++ (findSorted ls g st d).takeWhile (fun e => e.done) }
  else st

/-- The state before the first response: the root entry (a directory — a
non-directory root is emitted before the loop even starts) is pending and
its listing has been queued. -/
def findInit (g : FPath → Bool) (root : FPath) : FindState :=
  { pending := [FindEntry.mk root true (g root) false],
    tasks := [root],
    emitted := [] }

/-- A complete or partial run of the control loop under a response
schedule. -/
def findRun (ls : ListingMap) (g : FPath → Bool) (root : FPath)
    (sched : List FPath) : FindState :=
  sched.foldl (findStep ls g) (findInit g root)

/-- The entry abspaths the traversal currently knows about. -/
def FindState.paths (st : FindState) : List FPath :=
  st.emitted.map FindEntry.path ++ st.pending.map FindEntry.path

/-- The entries of the remote tree: the root directory and everything a
chain of listings reaches from it. -/
inductive Reaches (ls : ListingMap) (root : FPath) : FPath → Bool → Prop where
  | rootEntry : Reaches ls root root true
  | childEntry {d c : FPath} {b : Bool} :
      Reaches ls root d true → (c, b) ∈ lsChildren ls d → Reaches ls root c b

/-- The loop invariant of `control()`. -/
structure FindInv (ls : ListingMap) (g : FPath → Bool) (root : FPath)
    (st : FindState) : Prop where
  pend_sorted : st.pending.Pairwise entryLe
  nodup : st.paths.Nodup
  emit_sorted : st.emitted.Pairwise (fun a b => pathLt a.path b.path)
  emit_lt_pend : ∀ a ∈ st.emitted, ∀ b ∈ st.pending, pathLt a.path b.path
  emit_done : ∀ e ∈ st.emitted, e.done = true
  head_undone : ∀ e, st.pending.head? = some e → e.done = false
  task_pend : ∀ d ∈ st.tasks,
    ∃ e ∈ st.pending, e.path = d ∧ e.done = false ∧ e.is_dir = true
  tasks_nodup : st.tasks.Nodup
  fresh : ∀ d ∈ st.tasks, ∀ q ∈ st.paths, ¬ ((d ++ ['/']) <+: q)
  file_done : ∀ e ∈ st.emitted ++ st.pending, e.is_dir = false → e.done = true
  undone_task : ∀ e ∈ st.emitted ++ st.pending,
    e.is_dir = true → e.done = false → e.path ∈ st.tasks
  dir_closed : ∀ e ∈ st.emitted ++ st.pending, e.is_dir = true → e.done = true →
    ∀ c ∈ lsChildren ls e.path, c.1 ∈ st.paths
  reach : ∀ e ∈ st.emitted ++ st.pending, Reaches ls root e.path e.is_dir
  root_mem : root ∈ st.paths
  good_flag : ∀ e ∈ st.emitted ++ st.pending, e.good = g e.path

/-! Theorems. -/

/-- C4 counterexample.  The claim says a transient error is "retried at most
`max_retries` times before the error is surfaced".  With `max_retries = 0`
it therefore predicts that the first transient outcome is surfaced with no
retry, i.e. the run `[transient, success 42]` ends in
`raisedTransient 0`.  The code instead retries (the guard is
`retries > max_retries`, not `≥`), consumes the transient outcome and
returns the subsequent success with the counter at 1 > 0 = max_retries. -/
theorem control_retries_beyond_max :
    Control.control 0 [.transient, .success 42] 0 = .ok 42 1 ∧
      Control.control 0 [.transient, .success 42] 0 ≠ .raisedTransient 0 := by
  constructor <;> decide

/-- C4 amended: in `_async_control`, (a) rate-limited responses are retried
indefinitely and never increment the counter; (b) a transient error arriving
when the counter exceeds `max_retries` is surfaced, otherwise it increments
the counter and is retried — so a transient error is retried at most
`max_retries + 1` times; (c) any other error is raised immediately; (d)
after K rate-limited responses followed by M transient errors the counter
equals M. -/
theorem control_retry_policy (maxR K M v : Nat) (rest : List Control.Outcome)
    (r : Nat) (hM : M ≤ maxR + 1) :
    (Control.control maxR (List.replicate K .rate ++ rest) r =
        Control.control maxR rest r) ∧
    (r > maxR →
      Control.control maxR (.transient :: rest) r = .raisedTransient r) ∧
    (r ≤ maxR →
      Control.control maxR (.transient :: rest) r =
        Control.control maxR rest (r + 1)) ∧
    (Control.control maxR (.other :: rest) r = .raisedOther r) ∧
    (Control.control maxR
        (List.replicate K .rate ++ (List.replicate M .transient ++ [.success v])) 0 =
      .ok v M) ∧
    (Control.control maxR (List.replicate (maxR + 2) .transient) 0 =
      .raisedTransient (maxR + 1)) := by
  have hrate : ∀ (K : Nat) (l : List Control.Outcome) (r : Nat),
      Control.control maxR (List.replicate K .rate ++ l) r =
        Control.control maxR l r := by
    intro K
    induction K with
    | zero => intro l r; rfl
    | succ n ih =>
      intro l r
      simpa [List.replicate_succ, Control.control] using ih l r
  have htrans : ∀ (M r : Nat), r + M ≤ maxR + 1 →
      ∀ (v : Nat), Control.control maxR
          (List.replicate M .transient ++ [.success v]) r = .ok v (r + M) := by
    intro M
    induction M with
    | zero => intro r _ v; rfl
    | succ n ih =>
      intro r hr v
      have hle : ¬ r > maxR := by omega
      have hstep : Control.control maxR
          (List.replicate (n + 1) .transient ++ [.success v]) r =
          Control.control maxR
            (List.replicate n .transient ++ [.success v]) (r + 1) := by
        simp [List.replicate_succ, Control.control, hle]
      rw [hstep, ih (r + 1) (by omega) v]
      congr 1
      omega
  have hraise : ∀ (k r : Nat), r + k = maxR + 1 →
      Control.control maxR (List.replicate (k + 1) .transient) r =
        .raisedTransient (maxR + 1) := by
    intro k
    induction k with
    | zero =>
      intro r hr
      obtain rfl : r = maxR + 1 := by omega
      have hgt : maxR + 1 > maxR := by omega
      simp [List.replicate_succ, Control.control, hgt]
    | succ n ih =>
      intro r hr
      have hle : ¬ r > maxR := by omega
      have hstep : Control.control maxR
          (List.replicate (n + 1 + 1) .transient) r =
          Control.control maxR (List.replicate (n + 1) .transient) (r + 1) := by
        simp [List.replicate_succ, Control.control, hle]
      rw [hstep, ih (r + 1) (by omega)]
  refine ⟨hrate K rest r, ?_, ?_, rfl, ?_, ?_⟩
  · intro h
    simp [Control.control, h]
  · intro h
    have hle : ¬ r > maxR := by omega
    simp [Control.control, hle]
  · exact (hrate K _ 0).trans (by simpa using htrans M 0 (by omega) v)
  · have := hraise (maxR + 1) 0 (by omega)
    simpa using this

/-- Witness for `control_retry_policy` at `maxR = 1`, `K = 2`, `M = 2`,
`v = 7`, `rest = []`, `r = 0`. -/
theorem control_retry_policy_witness :
    (2 ≤ 1 + 1) ∧
    ((Control.control 1 (List.replicate 2 .rate ++ []) 0 =
        Control.control 1 [] 0) ∧
    (0 > 1 →
      Control.control 1 [.transient] 0 = .raisedTransient 0) ∧
    (0 ≤ 1 →
      Control.control 1 [.transient] 0 =
        Control.control 1 [] (0 + 1)) ∧
    (Control.control 1 [.other] 0 = .raisedOther 0) ∧
    (Control.control 1
        (List.replicate 2 .rate ++ (List.replicate 2 .transient ++ [.success 7])) 0 =
      .ok 7 2) ∧
    (Control.control 1 (List.replicate (1 + 2) .transient) 0 =
      .raisedTransient (1 + 1))) :=
  ⟨by omega, control_retry_policy 1 2 2 7 [] 0 (by omega)⟩

/-- C5 counterexample.  The claim says `AlwaysComparable(None)` is below any
non-`None` value and the converse fails.  In the code the very first check
is `if bv is None: return True`, so `AC(5) < AC(None)` is `True` and
`AC(None) < AC(5)` is `False` — `None` sorts above everything. -/
theorem acLt_none_is_top_cex :
    SwarmCmp.acLt (.vint 5) .vnone = true ∧
      SwarmCmp.acLt .vnone (.vint 5) = false := by
  decide

/-- C5 amended: `AlwaysComparable.__lt__` orders `None` *above* any value
(`a < b` is true whenever `b` holds `None`, even when `a` does too, so the
relation is not irreflexive at `None`); an integer is below a string; two
values of the same type compare by their natural (numeric respectively
lexicographic) order. -/
theorem acLt_order_spec (v : SwarmCmp.PVal) (a b : Int) (s t : List Char)
    (hv : v ≠ .vnone) :
    SwarmCmp.acLt v .vnone = true ∧
    SwarmCmp.acLt .vnone .vnone = true ∧
    SwarmCmp.acLt .vnone v = false ∧
    SwarmCmp.acLt (.vint a) (.vint b) = decide (a < b) ∧
    SwarmCmp.acLt (.vstr s) (.vstr t) = decide (s < t) ∧
    SwarmCmp.acLt (.vint a) (.vstr s) = true ∧
    SwarmCmp.acLt (.vstr s) (.vint a) = false := by
  refine ⟨?_, rfl, ?_, rfl, rfl, rfl, rfl⟩
  · cases v with
    | vnone => exact absurd rfl hv
    | vint n => rfl
    | vstr s => rfl
  · cases v with
    | vnone => exact absurd rfl hv
    | vint n => rfl
    | vstr s => rfl

/-- Witness for `acLt_order_spec` at `v = vint 5`, `a = 1`, `b = 2`,
`s = "x".data`, `t = "y".data`. -/
theorem acLt_order_spec_witness :
    SwarmCmp.PVal.vint 5 ≠ .vnone ∧
      (SwarmCmp.acLt (.vint 5) .vnone = true ∧
       SwarmCmp.acLt .vnone .vnone = true ∧
       SwarmCmp.acLt .vnone (.vint 5) = false ∧
       SwarmCmp.acLt (.vint 1) (.vint 2) = decide ((1 : Int) < 2) ∧
       SwarmCmp.acLt (.vstr "x".data) (.vstr "y".data) =
         decide ("x".data < "y".data) ∧
       SwarmCmp.acLt (.vint 1) (.vstr "x".data) = true ∧
       SwarmCmp.acLt (.vstr "x".data) (.vint 1) = false) :=
  ⟨by decide, acLt_order_spec (.vint 5) 1 2 "x".data "y".data (by decide)⟩

/-! Part: Chunking lemmas -/

theorem readChunksAux_flatten (n : Nat) (hn : 0 < n) :
    ∀ (fuel : Nat) (l : List Nat), l.length ≤ fuel →
      (readChunksAux fuel n l).flatten = l := by
  intro fuel
  induction fuel with
  | zero =>
    intro l hl
    have hnil : l = [] := List.eq_nil_of_length_eq_zero (by omega)
    subst hnil
    rfl
  | succ k ih =>
    intro l hl
    cases l with
    | nil => rfl
    | cons a rest =>
      have hne : ¬ n = 0 := by omega
      have hdrop : (List.drop n (a :: rest)).length ≤ k := by
        simp only [List.length_drop, List.length_cons]
        simp only [List.length_cons] at hl
        omega
      simp only [readChunksAux, if_neg hne, List.flatten_cons, ih _ hdrop]
      exact List.take_append_drop n (a :: rest)

theorem chunksOf_flatten (n : Nat) (hn : 0 < n) (l : List Nat) :
    (chunksOf n l).flatten = l :=
  readChunksAux_flatten n hn l.length l le_rfl

theorem readChunksAux_length (n : Nat) (hn : 0 < n) :
    ∀ (fuel : Nat) (l : List Nat), l.length ≤ fuel →
      (readChunksAux fuel n l).length = (l.length + n - 1) / n := by
  intro fuel
  induction fuel with
  | zero =>
    intro l hl
    have hnil : l = [] := List.eq_nil_of_length_eq_zero (by omega)
    subst hnil
    show (0 : Nat) = (0 + n - 1) / n
    rw [show 0 + n - 1 = n - 1 from by omega, Nat.div_eq_of_lt (by omega)]
  | succ k ih =>
    intro l hl
    cases l with
    | nil =>
      show (0 : Nat) = (0 + n - 1) / n
      rw [show 0 + n - 1 = n - 1 from by omega, Nat.div_eq_of_lt (by omega)]
    | cons a rest =>
      have hne : ¬ n = 0 := by omega
      have hdrop : (List.drop n (a :: rest)).length ≤ k := by
        simp only [List.length_drop, List.length_cons]
        simp only [List.length_cons] at hl
        omega
      simp only [readChunksAux, if_neg hne, List.length_cons, ih _ hdrop,
        List.length_drop]
      rcases Nat.lt_or_ge n (rest.length + 1) with hgt | hle
      · rw [show rest.length + 1 - n + n - 1 = rest.length from by omega,
          show rest.length + 1 + n - 1 = rest.length + n from by omega,
          Nat.add_div_right _ hn]
      · rw [show rest.length + 1 - n + n - 1 = n - 1 from by omega,
          show rest.length + 1 + n - 1 = rest.length + n from by omega,
          Nat.add_div_right _ hn, Nat.div_eq_of_lt (show n - 1 < n by omega),
          Nat.div_eq_of_lt (show rest.length < n by omega)]

theorem chunksOf_length (n : Nat) (hn : 0 < n) (l : List Nat) :
    (chunksOf n l).length = (l.length + n - 1) / n :=
  readChunksAux_length n hn l.length l le_rfl

/-- C2.  The claim says `put` with `size > chunk_size` calls `create`, then
`ceil(size/chunk_size)` add-blocks, then `close`.  The small-file half of
the claim holds (one `put` request, nothing else), but the large-file branch
of `_async_put` calls the undefined bare name
`_async_stream_put_from_file` (missing `self.`), raising `NameError` before
any request is issued — shown here on a 3-byte file with `chunk_size = 2`.
The last two conjuncts show that the streaming helper the code meant to
call would indeed have sent chunks that cover the file in order, in
`ceil(size/chunk_size)` blocks. -/
theorem async_put_requests (content : List Nat) (target : FPath) (ow : Bool)
    (chunk : Nat) (hsmall : content.length ≤ chunk) (hpos : 0 < chunk) :
    async_put content target ow chunk = .ok [Req.put target content ow] ∧
    async_put [0, 1, 2] target ow 2 = .error .nameError ∧
    (chunksOf chunk content).flatten = content ∧
    (chunksOf chunk content).length = (content.length + chunk - 1) / chunk := by
  refine ⟨?_, rfl, chunksOf_flatten chunk hpos content,
    chunksOf_length chunk hpos content⟩
  have h : ¬ content.length > chunk := by omega
  simp [async_put, h]

/-- Witness for `async_put_requests` at `content = [5, 6]`, `chunk = 3`. -/
theorem async_put_requests_witness :
    (([5, 6] : List Nat).length ≤ 3 ∧ 0 < 3) ∧
    (async_put [5, 6] "/t".data false 3 = .ok [Req.put "/t".data [5, 6] false] ∧
     async_put [0, 1, 2] "/t".data false 2 = .error .nameError ∧
     (chunksOf 3 [5, 6]).flatten = [5, 6] ∧
     (chunksOf 3 [5, 6]).length = (([5, 6] : List Nat).length + 3 - 1) / 3) :=
  ⟨⟨by decide, by decide⟩,
    async_put_requests [5, 6] "/t".data false 3 (by decide) (by decide)⟩

/-- C3.  A 3-byte upload with `chunk_size = 2` whose post-close `get-status`
reports 2 bytes: the call fails with the corruption error, but the request
trace contains no delete — the cleanup `self._async_rm(target)` omits the
mandatory `session` argument, the resulting `TypeError` is swallowed by the
bare `except: pass`, and the partial remote file is left in place, contrary
to the claim that a delete is issued before the error is surfaced. -/
theorem streamPut_mismatch_no_delete :
    (streamPut [1, 2, 3] 2 "/t".data false 7 2).2 = .error .corruptedCopy ∧
    (streamPut [1, 2, 3] 2 "/t".data false 7 2).1 =
      [Req.create "/t".data false, Req.addBlock 7 [1, 2], Req.addBlock 7 [3],
        Req.close 7, Req.getStatus "/t".data] ∧
    ((streamPut [1, 2, 3] 2 "/t".data false 7 2).1.all
      (fun r => !(Req.isDelete r))) = true := by
  refine ⟨rfl, rfl, rfl⟩

/-- C7.  The claim says evaluating any recognised predicate never raises.
In the source, `_check_predicate__iname` and `__re` take two parameters but
are called with three, and `__name` passes the relpath as the integer `pos`
argument of `re.Pattern.fullmatch`; all three raise `TypeError` on every
call, as evaluated here on a concrete file entry. -/
theorem check_predicates_raises :
    check_predicates ⟨false, 3, 0, "/d/x".data⟩ (some "x".data)
      [((false, .iname), some (.pat ⟨fun _ => true, fun _ => true⟩))] =
      .error .typeError ∧
    check_predicates ⟨false, 3, 0, "/d/x".data⟩ (some "x".data)
      [((false, .re), some (.pat ⟨fun _ => true, fun _ => true⟩))] =
      .error .typeError ∧
    check_predicates ⟨false, 3, 0, "/d/x".data⟩ (some "x".data)
      [((false, .name), some (.pat ⟨fun _ => true, fun _ => true⟩))] =
      .error .typeError ∧
    check_predicates ⟨false, 3, 0, "/d/x".data⟩ (some "x".data)
      [((false, .min_size), some (.num 1)), ((true, .ire), some (.pat ⟨fun _ => true, fun _ => false⟩))] =
      .ok true := by
  refine ⟨rfl, rfl, rfl, rfl⟩

/-- C8.  The claim says `filetest_d` (and `filetest_e`/`filetest_f`) return
a `bool`.  All three public wrappers call `self._filetest`, an attribute the
class never defines, and raise `AttributeError` on any path; the underlying
helper `_async_filetest` does implement the claimed semantics (callback on
an existing entry, `False` on `RESOURCE_DOES_NOT_EXIST`, re-raise
otherwise). -/
theorem filetest_attribute_error :
    filetest_d "/".data = .error .attributeError ∧
    filetest_e "/".data = .error .attributeError ∧
    filetest_f "/".data = .error .attributeError ∧
    (∀ fi : FileInfo, async_filetest (.ok fi) (fun fi => fi.is_dir) = .ok fi.is_dir) ∧
    (∀ cb : FileInfo → Bool,
      async_filetest (.error .resourceDoesNotExist) cb = .ok false) ∧
    (∀ cb : FileInfo → Bool,
      async_filetest (.error .otherCode) cb = .error .otherCode) :=
  ⟨rfl, rfl, rfl, fun _ => rfl, fun _ => rfl, fun _ => rfl⟩

/-- C10.  `_async_mv` never consults its `overwrite` argument: the request
trace and outcome are identical functions of the backend environment for
`overwrite = False` and `overwrite = True`; in particular, when the first
move hits `RESOURCE_ALREADY_EXISTS` and the target is an existing file, the
code deletes it and retries the move even with `overwrite = False`. -/
theorem async_mv_ignores_overwrite :
    (∀ (src target : FPath) (env : MvEnv),
      async_mv src target false env = async_mv src target true env) ∧
    (∀ (src target : FPath) (ow : Bool) (sz mt : Int),
      async_mv src target ow
        { mv1 := some .resourceAlreadyExists,
          status := .ok ⟨false, sz, mt, target⟩,
          rmErr := none, mv2 := none } =
      ([Req.move src target, Req.getStatus target, Req.delete target false,
        Req.move src target], none)) :=
  ⟨fun _ _ _ => rfl, fun _ _ _ _ _ => rfl⟩

/-! Part: cwd repair after `rm` -/

theorem dropWhile_append_sat (p : Char → Bool) (xs ys : List Char)
    (h : ∀ x ∈ xs, p x = true) :
    (xs ++ ys).dropWhile p = ys.dropWhile p := by
  induction xs with
  | nil => rfl
  | cons a t ih =>
    have ha : p a = true := h a (List.mem_cons_self a t)
    simp only [List.cons_append, List.dropWhile_cons, ha, if_true]
    exact ih (fun x hx => h x (List.mem_cons_of_mem a hx))

theorem posixSplitHead_child (d nm : List Char) (h1 : '/' ∉ nm)
    (h2 : ¬ d.all (fun c => c = '/') = true) (h3 : d.getLast? ≠ some '/') :
    posixSplitHead (d ++ '/' :: nm) = d := by
  have hrev : (d ++ '/' :: nm).reverse = nm.reverse ++ '/' :: d.reverse := by
    rw [List.reverse_append, List.reverse_cons, List.append_assoc]
    rfl
  have hdrop : (d ++ '/' :: nm).reverse.dropWhile (fun c => c ≠ '/') =
      '/' :: d.reverse := by
    rw [hrev, dropWhile_append_sat]
    · simp [List.dropWhile_cons]
    · intro x hx
      have hxnm : x ∈ nm := List.mem_reverse.mp hx
      have hxne : x ≠ '/' := fun hc => h1 (hc ▸ hxnm)
      simpa using hxne
  have hhead : ((d ++ '/' :: nm).reverse.dropWhile (fun c => c ≠ '/')).reverse =
      d ++ ['/'] := by
    rw [hdrop, List.reverse_cons, List.reverse_reverse]
  have hdnil : d ≠ [] := by
    intro hd
    subst hd
    exact h2 rfl
  simp only [posixSplitHead]
  rw [hhead, if_pos ?_]
  · rw [List.reverse_append]
    have hrsingle : (['/'] : List Char).reverse = ['/'] := rfl
    rw [hrsingle]
    show ((('/' : Char) :: d.reverse).dropWhile (fun c => c = '/')).reverse = d
    rw [List.dropWhile_cons, if_pos (by simp)]
    cases hdr : d.reverse with
    | nil => exact absurd (by simpa using congrArg List.reverse hdr) hdnil
    | cons c t =>
      have hc : d.getLast? = some c := by
        rw [← List.head?_reverse, hdr]
        rfl
      have hcne : c ≠ '/' := fun hcc => h3 (by rw [hc, hcc])
      rw [List.dropWhile_cons, if_neg (by simpa using hcne), ← hdr,
        List.reverse_reverse]
  · constructor
    · simp
    · intro hall
      rw [List.all_append] at hall
      have hd := (Bool.and_eq_true _ _).mp hall
      exact h2 hd.1

/-- C9.  The cwd repair after `rm(path, recursive=True)`: conjuncts state,
in order, that a root cwd is untouched; that a cwd equal to the removed
path, or extending it across a slash (a proper descendant), is replaced by
`posixpath.split(path)[0]`; that any other cwd (including a sibling sharing
a name prefix) is unchanged; that for a path of the form `d ++ "/" ++ name`
(normalised: `name` slash-free, `d` not ending in a slash and not all
slashes) the replacement is exactly the parent directory `d`; and the
claim's concrete example `cwd = "/a/b/c"`, `rm -R "/a/b"` leaving
`cwd = "/a"`. -/
theorem rm_cwd_repair (cwd path d nm rest : List Char) :
    (rmFixCwd ['/'] path = ['/']) ∧
    (cwd ≠ ['/'] → cwd = path → rmFixCwd cwd path = posixSplitHead path) ∧
    (cwd ≠ ['/'] → cwd = path ++ '/' :: rest →
      rmFixCwd cwd path = posixSplitHead path) ∧
    (cwd ≠ path → ¬ ((path ++ ['/']) <+: cwd) → rmFixCwd cwd path = cwd) ∧
    ('/' ∉ nm → ¬ d.all (fun c => c = '/') = true → d.getLast? ≠ some '/' →
      posixSplitHead (d ++ '/' :: nm) = d) ∧
    rmFixCwd "/a/b/c".data "/a/b".data = "/a".data := by
  refine ⟨?_, ?_, ?_, ?_, posixSplitHead_child d nm, ?_⟩
  · simp [rmFixCwd]
  · intro hr he
    simp only [rmFixCwd]
    rw [if_neg hr, if_pos (Or.inl he)]
  · intro hr he
    have hpre : path <+: cwd := ⟨'/' :: rest, he.symm⟩
    have hget : cwd[path.length]? = some '/' := by
      rw [he, List.getElem?_append_right le_rfl]
      simp
    simp only [rmFixCwd]
    rw [if_neg hr, if_pos (Or.inr ⟨hpre, hget⟩)]
  · intro hne hnpre
    by_cases hr : cwd = ['/']
    · simp only [rmFixCwd]
      rw [if_pos hr]
    · simp only [rmFixCwd]
      rw [if_neg hr, if_neg ?_]
      rintro (he | ⟨⟨t, ht⟩, hget⟩)
      · exact hne he
      · subst ht
        rw [List.getElem?_append_right le_rfl] at hget
        simp only [Nat.sub_self] at hget
        cases t with
        | nil => simp at hget
        | cons c t' =>
          simp only [List.getElem?_cons_zero, Option.some.injEq] at hget
          exact hnpre ⟨t', by simp [hget]⟩
  · decide

/-- Witness for `rm_cwd_repair`: the equal-path, descendant, sibling and
parent-computation conjuncts discharged at concrete paths. -/
theorem rm_cwd_repair_witness :
    rmFixCwd "/a/b".data "/a/b".data = posixSplitHead "/a/b".data ∧
    rmFixCwd "/a/b/c".data "/a/b".data = posixSplitHead "/a/b".data ∧
    rmFixCwd "/ab".data "/a".data = "/ab".data ∧
    posixSplitHead ("/a".data ++ '/' :: "b".data) = "/a".data :=
  ⟨(rm_cwd_repair "/a/b".data "/a/b".data [] [] []).2.1 (by decide) rfl,
   (rm_cwd_repair "/a/b/c".data "/a/b".data [] [] "c".data).2.2.1 (by decide)
     (by decide),
   (rm_cwd_repair "/ab".data "/a".data [] [] []).2.2.2.1 (by decide) (by decide),
   (rm_cwd_repair [] [] "/a".data "b".data []).2.2.2.2.1 (by decide) (by decide)
     (by decide)⟩

/-! Part: Path order lemmas -/

theorem pathLt_trans {a b c : FPath} (h1 : pathLt a b) (h2 : pathLt b c) :
    pathLt a c := trans_of (List.Lex (· < ·)) h1 h2

theorem pathLt_irrefl (a : FPath) : ¬ pathLt a a := irrefl_of (List.Lex (· < ·)) a

theorem pathLt_trichotomy (a b : FPath) : pathLt a b ∨ a = b ∨ pathLt b a :=
  trichotomous_of (List.Lex (· < ·)) a b

theorem pathLe_total (a b : FPath) : pathLe a b ∨ pathLe b a := by
  rcases pathLt_trichotomy a b with h | h | h
  · exact Or.inl (Or.inl h)
  · exact Or.inl (Or.inr h)
  · exact Or.inr (Or.inl h)

theorem pathLe_trans {a b c : FPath} (h1 : pathLe a b) (h2 : pathLe b c) :
    pathLe a c := by
  rcases h1 with h1 | rfl
  · rcases h2 with h2 | rfl
    · exact Or.inl (pathLt_trans h1 h2)
    · exact Or.inl h1
  · exact h2

/-- A proper extension across a further character is strictly above in the
lexicographic order. -/
theorem pathLt_append_cons (s : FPath) (a : Char) (t : FPath) :
    pathLt s (s ++ a :: t) := by
  have h := List.Lex.append_left (· < ·) (show List.Lex (· < ·) [] (a :: t) from List.Lex.nil) s
  simpa using h

theorem pathLe_of_lt {a b : FPath} (h : pathLt a b) : pathLe a b := Or.inl h

theorem pathLt_of_le_of_ne {a b : FPath} (h : pathLe a b) (hne : a ≠ b) :
    pathLt a b := by
  rcases h with h | rfl
  · exact h
  · exact absurd rfl hne

/-! Part: `childOk` unpacking -/

theorem childOk_spec {d c : FPath} (h : childOk d c = true) :
    ∃ nm, nm ≠ [] ∧ '/' ∉ nm ∧ c = d ++ '/' :: nm := by
  unfold childOk at h
  rw [Bool.and_eq_true, Bool.and_eq_true] at h
  obtain ⟨⟨h1, h2⟩, h3⟩ := h
  rw [decide_eq_true_iff] at h1 h2 h3
  obtain ⟨t, ht⟩ := h1
  refine ⟨t, ?_, ?_, ?_⟩
  · intro hnil
    subst hnil
    have := congrArg List.length ht
    simp at this
    omega
  · intro hmem
    apply h3
    have hdrop : c.drop (d.length + 1) = t := by
      rw [← ht]
      have : d.length + 1 = (d ++ ['/']).length := by simp
      rw [this, List.drop_left]
    rw [hdrop]
    exact hmem
  · rw [← ht, List.append_assoc]
    rfl

theorem lsChildren_wf {ls : ListingMap} (hwf : LsWf ls) (d : FPath) :
    (∀ c ∈ lsChildren ls d, childOk d c.1 = true) ∧
      ((lsChildren ls d).map Prod.fst).Nodup := by
  unfold lsChildren
  cases hf : ls.find? (fun p => p.1 = d) with
  | none => exact ⟨fun c hc => absurd hc (List.not_mem_nil c), List.nodup_nil⟩
  | some e =>
    have hmem := List.mem_of_find?_eq_some hf
    have hkey := List.find?_some hf
    rw [decide_eq_true_iff] at hkey
    obtain ⟨hok, hnd⟩ := hwf e hmem
    subst hkey
    exact ⟨hok, hnd⟩

/-- A well-formed child is strictly greater than its directory, and the
directory-with-slash is a prefix of the child. -/
theorem child_gt {d c : FPath} (h : childOk d c = true) :
    pathLt d c ∧ (d ++ ['/']) <+: c := by
  obtain ⟨nm, _, _, rfl⟩ := childOk_spec h
  constructor
  · exact pathLt_append_cons d '/' nm
  · refine ⟨nm, ?_⟩
    rw [List.append_assoc]
    rfl

/-! Part: `markDone` lemmas -/

theorem markDone_eq_map {l : List FindEntry} (k : FPath)
    (h : (l.map FindEntry.path).Nodup) :
    markDone l k = l.map (setDone k) := by
  induction l with
  | nil => rfl
  | cons e es ih =>
    simp only [List.map_cons, List.nodup_cons] at h
    by_cases hk : e.path = k
    · simp only [markDone, if_pos hk, List.map_cons, setDone, if_pos hk]
      congr 1
      have : ∀ x ∈ es, setDone k x = x := by
        intro x hx
        have : x.path ≠ k := by
          intro hxk
          exact h.1 (hk ▸ hxk ▸ List.mem_map_of_mem FindEntry.path hx)
        simp [setDone, this]
      have hmap : List.map (setDone k) es = es := by
        calc List.map (setDone k) es
            = List.map id es := List.map_congr_left (fun x hx => this x hx)
          _ = es := List.map_id es
      exact hmap.symm
    · simp only [markDone, if_neg hk, List.map_cons, setDone, if_neg hk]
      congr 1
      exact ih h.2

theorem setDone_path (k : FPath) (e : FindEntry) : (setDone k e).path = e.path := by
  unfold setDone
  by_cases hk : e.path = k <;> simp [hk]

theorem setDone_is_dir (k : FPath) (e : FindEntry) :
    (setDone k e).is_dir = e.is_dir := by
  unfold setDone
  by_cases hk : e.path = k <;> simp [hk]

theorem setDone_good (k : FPath) (e : FindEntry) : (setDone k e).good = e.good := by
  unfold setDone
  by_cases hk : e.path = k <;> simp [hk]

theorem setDone_done {k : FPath} {e : FindEntry} (h : (setDone k e).done = false) :
    e.done = false ∧ e.path ≠ k := by
  unfold setDone at h
  by_cases hk : e.path = k
  · rw [if_pos hk] at h
    simp at h
  · rw [if_neg hk] at h
    exact ⟨h, hk⟩

theorem setDone_done_of_done {k : FPath} {e : FindEntry} (h : e.done = true) :
    (setDone k e).done = true := by
  unfold setDone
  by_cases hk : e.path = k <;> simp [hk, h]

/-! Part: Step analysis for the find control loop -/

theorem head_dropWhile_false {p : FindEntry → Bool} :
    ∀ {l : List FindEntry} {e}, (l.dropWhile p).head? = some e → p e = false := by
  intro l
  induction l with
  | nil => intro e h; simp [List.dropWhile] at h
  | cons a t ih =>
    intro e h
    rw [List.dropWhile_cons] at h
    by_cases hp : p a
    · rw [if_pos hp] at h
      exact ih h
    · rw [if_neg hp] at h
      simp only [List.head?_cons, Option.some.injEq] at h
      rw [← h]
      exact Bool.eq_false_iff.mpr hp

theorem mem_findMid {ls : ListingMap} {g : FPath → Bool} {st : FindState}
    {d : FPath} {e : FindEntry}
    (hnd : (st.pending.map FindEntry.path).Nodup)
    (h : e ∈ findMid ls g st d) :
    (∃ e0 ∈ st.pending, e = setDone d e0) ∨
      (∃ c ∈ lsChildren ls d, e = FindEntry.mk c.1 c.2 (g c.1) (!c.2)) := by
  unfold findMid findNew at h
  rw [markDone_eq_map d hnd] at h
  rcases List.mem_append.mp h with h | h
  · obtain ⟨e0, h0, he⟩ := List.mem_map.mp h
    exact Or.inl ⟨e0, h0, he.symm⟩
  · obtain ⟨c, hc, he⟩ := List.mem_map.mp h
    exact Or.inr ⟨c, hc, he.symm⟩

theorem findMid_paths {ls : ListingMap} {g : FPath → Bool} {st : FindState}
    {d : FPath} (hnd : (st.pending.map FindEntry.path).Nodup) :
    (findMid ls g st d).map FindEntry.path =
      st.pending.map FindEntry.path ++ (lsChildren ls d).map Prod.fst := by
  unfold findMid findNew
  rw [markDone_eq_map d hnd, List.map_append, List.map_map, List.map_map]
  congr 1
  · exact List.map_congr_left (fun e _ => setDone_path d e)

theorem findSorted_perm (ls : ListingMap) (g : FPath → Bool) (st : FindState)
    (d : FPath) : List.Perm (findSorted ls g st d) (findMid ls g st d) := by
  unfold findSorted
  by_cases hnil : lsChildren ls d = []
  · rw [if_pos hnil]
  · rw [if_neg hnil]
    exact List.perm_insertionSort entryLe _

theorem pairwise_entryLe_map_setDone {l : List FindEntry} {d : FPath}
    (h : l.Pairwise entryLe) : (l.map (setDone d)).Pairwise entryLe := by
  rw [List.pairwise_map]
  refine h.imp ?_
  intro a b hab
  unfold entryLe
  rw [setDone_path, setDone_path]
  exact hab

theorem findSorted_pairwise_le {ls : ListingMap} {g : FPath → Bool}
    {st : FindState} {d : FPath} (hp : st.pending.Pairwise entryLe)
    (hnd : (st.pending.map FindEntry.path).Nodup) :
    (findSorted ls g st d).Pairwise entryLe := by
  unfold findSorted
  by_cases hnil : lsChildren ls d = []
  · rw [if_pos hnil]
    unfold findMid findNew
    rw [hnil, markDone_eq_map d hnd]
    simp only [List.map_nil, List.append_nil]
    exact pairwise_entryLe_map_setDone hp
  · rw [if_neg hnil]
    exact List.sorted_insertionSort entryLe _

theorem pairwise_ne_of_map_nodup {l : List FindEntry}
    (h : (l.map FindEntry.path).Nodup) :
    l.Pairwise (fun a b => a.path ≠ b.path) := List.pairwise_map.mp h

theorem pairwise_lt_of_le_of_nodup {l : List FindEntry}
    (hle : l.Pairwise entryLe) (hnd : (l.map FindEntry.path).Nodup) :
    l.Pairwise (fun a b => pathLt a.path b.path) :=
  (hle.and (pairwise_ne_of_map_nodup hnd)).imp
    (fun h => pathLt_of_le_of_ne h.1 h.2)

/-- Preservation of the control-loop invariant by one response step. -/
theorem findStep_inv {ls : ListingMap} {g : FPath → Bool} {root : FPath}
    {st : FindState} (hwf : LsWf ls) (inv : FindInv ls g root st) (d : FPath) :
    FindInv ls g root (findStep ls g st d) := by
  by_cases hd : d ∈ st.tasks
  swap
  · simpa [findStep, hd] using inv
  have hpnodup : (st.pending.map FindEntry.path).Nodup := by
    have h := inv.nodup
    unfold FindState.paths at h
    exact h.of_append_right
  have hcsok := lsChildren_wf hwf d
  have hchild : ∀ c ∈ lsChildren ls d, pathLt d c.1 ∧ (d ++ ['/']) <+: c.1 :=
    fun c hc => child_gt (hcsok.1 c hc)
  have hfresh_c : ∀ c ∈ lsChildren ls d, c.1 ∉ FindState.paths st :=
    fun c hc hmem => inv.fresh d hd c.1 hmem (hchild c hc).2
  obtain ⟨ed, hedp, hedpath, heddone, heddir⟩ := inv.task_pend d hd
  have htpaths : ∀ d' ∈ st.tasks, d' ∈ FindState.paths st := by
    intro d' hd'
    obtain ⟨e, hep, hepath, _, _⟩ := inv.task_pend d' hd'
    unfold FindState.paths
    exact List.mem_append_right _ (hepath ▸ List.mem_map_of_mem FindEntry.path hep)
  have hperm := findSorted_perm ls g st d
  have hsortedLe := @findSorted_pairwise_le ls g st d
    inv.pend_sorted hpnodup
  have hmidnodup : ((findMid ls g st d).map FindEntry.path).Nodup := by
    rw [findMid_paths hpnodup]
    refine List.Nodup.append hpnodup hcsok.2 ?_
    intro x hx hx2
    obtain ⟨c, hc, rfl⟩ := List.mem_map.mp hx2
    refine hfresh_c c hc ?_
    unfold FindState.paths
    exact List.mem_append_right _ hx
  have hsortnodup : ((findSorted ls g st d).map FindEntry.path).Nodup :=
    (hperm.map FindEntry.path).nodup_iff.mpr hmidnodup
  have hsortedLt : (findSorted ls g st d).Pairwise
      (fun a b => pathLt a.path b.path) :=
    pairwise_lt_of_le_of_nodup hsortedLe hsortnodup
  have hmem_mid : ∀ {e}, e ∈ findSorted ls g st d →
      (∃ e0 ∈ st.pending, e = setDone d e0) ∨
        (∃ c ∈ lsChildren ls d, e = FindEntry.mk c.1 c.2 (g c.1) (!c.2)) :=
    fun he => mem_findMid hpnodup (hperm.mem_iff.mp he)
  have hE_lt_srt : ∀ a ∈ st.emitted, ∀ b ∈ findSorted ls g st d,
      pathLt a.path b.path := by
    intro a ha b hb
    rcases hmem_mid hb with ⟨e0, he0, rfl⟩ | ⟨c, hc, rfl⟩
    · rw [setDone_path]
      exact inv.emit_lt_pend a ha e0 he0
    · have h1 : pathLt a.path d := hedpath ▸ inv.emit_lt_pend a ha ed hedp
      exact pathLt_trans h1 (hchild c hc).1
  have hsplit : (findSorted ls g st d).takeWhile (fun e => e.done) ++
      (findSorted ls g st d).dropWhile (fun e => e.done) =
      findSorted ls g st d := List.takeWhile_append_dropWhile _ _
  have hT_done : ∀ e ∈ (findSorted ls g st d).takeWhile (fun e => e.done),
      e.done = true := fun e he => by simpa using List.mem_takeWhile_imp he
  have hT_sub : List.Sublist
      ((findSorted ls g st d).takeWhile (fun e => e.done))
      (findSorted ls g st d) := List.takeWhile_sublist _
  have hD_sub : List.Sublist
      ((findSorted ls g st d).dropWhile (fun e => e.done))
      (findSorted ls g st d) := List.dropWhile_sublist _
  have hfresh' : ∀ d', d' ∈ st.tasks.erase d ++ findNewTasks ls d →
      ∀ q, q ∈ FindState.paths st ∨ q ∈ (lsChildren ls d).map Prod.fst →
      ¬ ((d' ++ ['/']) <+: q) := by
    intro d' hd' q hq hpre
    rcases List.mem_append.mp hd' with hold | hnewt
    · have hd'tasks := List.mem_of_mem_erase hold
      have hdne : d' ≠ d := by
        intro h
        subst h
        exact inv.tasks_nodup.not_mem_erase hold
      rcases hq with hq | hq
      · exact inv.fresh d' hd'tasks q hq hpre
      · obtain ⟨c, hc, rfl⟩ := List.mem_map.mp hq
        obtain ⟨nm, hnm1, hnm2, hcp⟩ := childOk_spec (hcsok.1 c hc)
        have hdc : d <+: c.1 := by
          rw [hcp]
          exact ⟨'/' :: nm, rfl⟩
        have hdpc : (d ++ ['/']) <+: c.1 := (hchild c hc).2
        have hd'c : d' <+: c.1 := (List.prefix_append d' ['/']).trans hpre
        rcases Nat.lt_trichotomy d'.length d.length with hlen | hlen | hlen
        · have hp2 : (d' ++ ['/']) <+: d :=
            List.prefix_of_prefix_length_le hpre hdc
              (by simp only [List.length_append, List.length_cons,
                List.length_nil]; omega)
          exact inv.fresh d' hd'tasks d (htpaths d hd) hp2
        · have hp2 : d' <+: d := List.prefix_of_prefix_length_le hd'c hdc
            (le_of_eq hlen)
          exact hdne (hp2.eq_of_length hlen)
        · have hp2 : (d ++ ['/']) <+: d' :=
            List.prefix_of_prefix_length_le hdpc hd'c
              (by simp only [List.length_append, List.length_cons,
                List.length_nil]; omega)
          exact inv.fresh d hd d' (htpaths d' hd'tasks) hp2
    · unfold findNewTasks at hnewt
      obtain ⟨c, hcf, rfl⟩ := List.mem_map.mp hnewt
      have hc := List.mem_of_mem_filter hcf
      obtain ⟨nm, hnm1, hnm2, hcp⟩ := childOk_spec (hcsok.1 c hc)
      rcases hq with hq | hq
      · have h1 : (d ++ ['/']) <+: c.1 := (hchild c hc).2
        have h2 : c.1 <+: q := (List.prefix_append c.1 ['/']).trans hpre
        exact inv.fresh d hd q hq (h1.trans h2)
      · obtain ⟨c', hc', rfl⟩ := List.mem_map.mp hq
        obtain ⟨nm', hnm1', hnm2', hcp'⟩ := childOk_spec (hcsok.1 c' hc')
        rw [hcp, hcp'] at hpre
        have hpre2 : d ++ '/' :: (nm ++ ['/']) <+: d ++ '/' :: nm' := by
          have : (d ++ '/' :: nm) ++ ['/'] = d ++ '/' :: (nm ++ ['/']) := by
            rw [List.append_assoc]
            rfl
          rwa [this] at hpre
        have hnm : nm ++ ['/'] <+: nm' :=
          (List.cons_prefix_cons.mp ((List.prefix_append_right_inj d).mp hpre2)).2
        exact hnm2' (hnm.subset (List.mem_append_right nm (List.mem_singleton.mpr rfl)))
  unfold findStep
  rw [if_pos hd]
  have hpathseq : FindState.paths
      { pending := (findSorted ls g st d).dropWhile (fun e => e.done),
        tasks := st.tasks.erase d ++ findNewTasks ls d,
        emitted := st.emitted ++
          (findSorted ls g st d).takeWhile (fun e => e.done) } =
      st.emitted.map FindEntry.path ++
        (findSorted ls g st d).map FindEntry.path := by
    unfold FindState.paths
    simp only [List.map_append]
    rw [List.append_assoc, ← List.map_append, hsplit]
  have hpaths' : List.Perm
      (FindState.paths
        { pending := (findSorted ls g st d).dropWhile (fun e => e.done),
          tasks := st.tasks.erase d ++ findNewTasks ls d,
          emitted := st.emitted ++
            (findSorted ls g st d).takeWhile (fun e => e.done) })
      (FindState.paths st ++ (lsChildren ls d).map Prod.fst) := by
    rw [hpathseq]
    refine List.Perm.trans (List.Perm.append_left _ (hperm.map _)) ?_
    rw [findMid_paths hpnodup, ← List.append_assoc]
    exact List.Perm.refl _
  have hmem_paths' : ∀ {q},
      q ∈ FindState.paths st ∨ q ∈ (lsChildren ls d).map Prod.fst →
      q ∈ FindState.paths
        { pending := (findSorted ls g st d).dropWhile (fun e => e.done),
          tasks := st.tasks.erase d ++ findNewTasks ls d,
          emitted := st.emitted ++
            (findSorted ls g st d).takeWhile (fun e => e.done) } := by
    intro q hq
    refine hpaths'.mem_iff.mpr ?_
    rcases hq with hq | hq
    · exact List.mem_append_left _ hq
    · exact List.mem_append_right _ hq
  have hmem_all : ∀ {e : FindEntry},
      e ∈ (st.emitted ++ (findSorted ls g st d).takeWhile (fun e => e.done)) ++
        (findSorted ls g st d).dropWhile (fun e => e.done) →
      e ∈ st.emitted ∨ e ∈ findSorted ls g st d := by
    intro e he
    rcases List.mem_append.mp he with he | he
    · rcases List.mem_append.mp he with he | he
      · exact Or.inl he
      · exact Or.inr (hT_sub.subset he)
    · exact Or.inr (hD_sub.subset he)
  refine { pend_sorted := ?_, nodup := ?_, emit_sorted := ?_,
           emit_lt_pend := ?_, emit_done := ?_, head_undone := ?_,
           task_pend := ?_, tasks_nodup := ?_, fresh := ?_, file_done := ?_,
           undone_task := ?_, dir_closed := ?_, reach := ?_, root_mem := ?_,
           good_flag := ?_ }
  · exact hsortedLe.sublist hD_sub
  · refine hpaths'.nodup_iff.mpr ?_
    refine List.Nodup.append inv.nodup hcsok.2 ?_
    intro x hx hx2
    obtain ⟨c, hc, rfl⟩ := List.mem_map.mp hx2
    exact hfresh_c c hc hx
  · refine List.pairwise_append.mpr ⟨inv.emit_sorted, hsortedLt.sublist hT_sub, ?_⟩
    intro a ha b hb
    exact hE_lt_srt a ha b (hT_sub.subset hb)
  · intro a ha b hb
    rcases List.mem_append.mp ha with ha | ha
    · exact hE_lt_srt a ha b (hD_sub.subset hb)
    · have hTD : ((findSorted ls g st d).takeWhile (fun e => e.done) ++
          (findSorted ls g st d).dropWhile (fun e => e.done)).Pairwise
          (fun a b => pathLt a.path b.path) := by
        rw [hsplit]
        exact hsortedLt
      exact (List.pairwise_append.mp hTD).2.2 a ha b hb
  · intro e he
    rcases List.mem_append.mp he with he | he
    · exact inv.emit_done e he
    · exact hT_done e he
  · intro e he
    exact head_dropWhile_false he
  · intro d' hd'
    rcases List.mem_append.mp hd' with hold | hnewt
    · have hd'tasks := List.mem_of_mem_erase hold
      have hdne : d' ≠ d := by
        intro h
        subst h
        exact inv.tasks_nodup.not_mem_erase hold
      obtain ⟨e, hep, hepath, hedone, hedir⟩ := inv.task_pend d' hd'tasks
      have hsame : setDone d e = e := by
        unfold setDone
        rw [if_neg (by rw [hepath]; exact hdne)]
      have hmm : e ∈ findMid ls g st d := by
        unfold findMid
        refine List.mem_append_left _ ?_
        rw [markDone_eq_map d hpnodup, ← hsame]
        exact List.mem_map_of_mem _ hep
      have hms : e ∈ findSorted ls g st d := hperm.mem_iff.mpr hmm
      rw [← hsplit] at hms
      rcases List.mem_append.mp hms with hT | hD
      · rw [hT_done e hT] at hedone
        exact absurd hedone (by simp)
      · exact ⟨e, hD, hepath, hedone, hedir⟩
    · unfold findNewTasks at hnewt
      obtain ⟨c, hcf, rfl⟩ := List.mem_map.mp hnewt
      have hc := List.mem_of_mem_filter hcf
      have hc2 : c.2 = true := by simpa using List.of_mem_filter hcf
      have hmm : FindEntry.mk c.1 c.2 (g c.1) (!c.2) ∈ findMid ls g st d := by
        unfold findMid findNew
        exact List.mem_append_right _ (List.mem_map_of_mem _ hc)
      have hms := hperm.mem_iff.mpr hmm
      rw [← hsplit] at hms
      rcases List.mem_append.mp hms with hT | hD
      · have := hT_done _ hT
        rw [hc2] at this
        exact absurd this (by simp)
      · exact ⟨_, hD, rfl, by rw [hc2]; rfl, hc2⟩
  · refine List.Nodup.append (inv.tasks_nodup.erase d) ?_ ?_
    · unfold findNewTasks
      exact hcsok.2.sublist ((List.filter_sublist _).map Prod.fst)
    · intro x hx hx2
      unfold findNewTasks at hx2
      obtain ⟨c, hcf, rfl⟩ := List.mem_map.mp hx2
      have hc := List.mem_of_mem_filter hcf
      exact hfresh_c c hc (htpaths c.1 (List.mem_of_mem_erase hx))
  · intro d' hd' q hq
    exact hfresh' d' hd' q (List.mem_append.mp (hpaths'.mem_iff.mp hq))
  · intro e he hdir
    rcases hmem_all he with he | he
    · exact inv.file_done e (List.mem_append_left _ he) hdir
    · rcases hmem_mid he with ⟨e0, he0, rfl⟩ | ⟨c, hc, rfl⟩
      · rw [setDone_is_dir] at hdir
        exact setDone_done_of_done
          (inv.file_done e0 (List.mem_append_right _ he0) hdir)
      · show (!c.2) = true
        have : c.2 = false := hdir
        rw [this]
        rfl
  · intro e he hdir hdone
    rcases hmem_all he with he | he
    · rw [inv.emit_done e he] at hdone
      exact absurd hdone (by simp)
    · rcases hmem_mid he with ⟨e0, he0, rfl⟩ | ⟨c, hc, rfl⟩
      · obtain ⟨hd0, hne0⟩ := setDone_done hdone
        rw [setDone_is_dir] at hdir
        have := inv.undone_task e0 (List.mem_append_right _ he0) hdir hd0
        rw [setDone_path]
        exact List.mem_append_left _ ((List.mem_erase_of_ne hne0).mpr this)
      · have hc2 : c.2 = true := hdir
        have : (FindEntry.mk c.1 c.2 (g c.1) (!c.2)).path ∈ findNewTasks ls d := by
          unfold findNewTasks
          exact List.mem_map_of_mem _ (List.mem_filter.mpr ⟨hc, by rw [hc2]⟩)
        exact List.mem_append_right _ this
  · intro e he hdir hdone c' hc'
    rcases hmem_all he with he | he
    · exact hmem_paths'
        (Or.inl (inv.dir_closed e (List.mem_append_left _ he) hdir hdone c' hc'))
    · rcases hmem_mid he with ⟨e0, he0, rfl⟩ | ⟨c, hc, rfl⟩
      · by_cases hpd : e0.path = d
        · have hpe : (setDone d e0).path = d := by rw [setDone_path, hpd]
          rw [hpe] at hc'
          exact hmem_paths' (Or.inr (List.mem_map_of_mem Prod.fst hc'))
        · have hsame : setDone d e0 = e0 := by
            unfold setDone
            rw [if_neg hpd]
          rw [hsame] at hdir hdone hc'
          exact hmem_paths'
            (Or.inl (inv.dir_closed e0 (List.mem_append_right _ he0) hdir hdone c' hc'))
      · have hc2 : c.2 = true := hdir
        have hd2 : (!c.2) = true := hdone
        rw [hc2] at hd2
        exact absurd hd2 (by simp)
  · intro e he
    rcases hmem_all he with he | he
    · exact inv.reach e (List.mem_append_left _ he)
    · rcases hmem_mid he with ⟨e0, he0, rfl⟩ | ⟨c, hc, rfl⟩
      · have := inv.reach e0 (List.mem_append_right _ he0)
        rw [setDone_path, setDone_is_dir]
        exact this
      · have hrd : Reaches ls root d true := by
          have := inv.reach ed (List.mem_append_right _ hedp)
          rw [hedpath, heddir] at this
          exact this
        have hcmem : (c.1, c.2) ∈ lsChildren ls d := by
          cases c
          exact hc
        exact Reaches.childEntry hrd hcmem
  · exact hmem_paths' (Or.inl inv.root_mem)
  · intro e he
    rcases hmem_all he with he | he
    · exact inv.good_flag e (List.mem_append_left _ he)
    · rcases hmem_mid he with ⟨e0, he0, rfl⟩ | ⟨c, hc, rfl⟩
      · have := inv.good_flag e0 (List.mem_append_right _ he0)
        rw [setDone_good, setDone_path]
        exact this
      · rfl

theorem findInit_inv (ls : ListingMap) (g : FPath → Bool) (root : FPath) :
    FindInv ls g root (findInit g root) := by
  refine { pend_sorted := ?_, nodup := ?_, emit_sorted := ?_,
           emit_lt_pend := ?_, emit_done := ?_, head_undone := ?_,
           task_pend := ?_, tasks_nodup := ?_, fresh := ?_, file_done := ?_,
           undone_task := ?_, dir_closed := ?_, reach := ?_, root_mem := ?_,
           good_flag := ?_ }
  · exact List.pairwise_singleton entryLe _
  · simp [findInit, FindState.paths]
  · exact List.Pairwise.nil
  · intro a ha
    cases ha
  · intro e he
    cases he
  · intro e he
    simp only [findInit, List.head?_cons, Option.some.injEq] at he
    rw [← he]
  · intro d' hd'
    simp only [findInit, List.mem_singleton] at hd'
    subst hd'
    exact ⟨_, List.mem_singleton.mpr rfl, rfl, rfl, rfl⟩
  · exact List.nodup_singleton root
  · intro d' hd' q hq hpre
    simp only [findInit, List.mem_singleton] at hd'
    subst hd'
    simp only [findInit, FindState.paths, List.map_nil, List.map_cons,
      List.nil_append, List.mem_singleton] at hq
    subst hq
    have := hpre.length_le
    simp only [List.length_append, List.length_cons, List.length_nil] at this
    omega
  · intro e he hdir
    simp only [findInit, List.nil_append, List.mem_singleton] at he
    subst he
    cases hdir
  · intro e he _ _
    simp only [findInit, List.nil_append, List.mem_singleton] at he
    subst he
    exact List.mem_singleton.mpr rfl
  · intro e he _ hdone
    simp only [findInit, List.nil_append, List.mem_singleton] at he
    subst he
    cases hdone
  · intro e he
    simp only [findInit, List.nil_append, List.mem_singleton] at he
    subst he
    exact Reaches.rootEntry
  · simp [findInit, FindState.paths]
  · intro e he
    simp only [findInit, List.nil_append, List.mem_singleton] at he
    subst he
    rfl

theorem findRun_inv (ls : ListingMap) (g : FPath → Bool) (root : FPath)
    (sched : List FPath) (hwf : LsWf ls) :
    FindInv ls g root (findRun ls g root sched) := by
  unfold findRun
  have h : ∀ (l : List FPath) (st : FindState), FindInv ls g root st →
      FindInv ls g root (l.foldl (findStep ls g) st) := by
    intro l
    induction l with
    | nil => exact fun st h => h
    | cons a t ih => exact fun st h => ih _ (findStep_inv hwf h a)
  exact h sched _ (findInit_inv ls g root)

/-- C1.  In any run of the `_async_find` control loop over a well-formed
directory tree, under any arrival order of the listing responses and any
predicate/filter verdict, the sequence of entries passed to `update_cb` is
strictly ascending in the lexicographic order of their abspaths. -/
theorem find_emits_strictly_ascending (ls : ListingMap) (g : FPath → Bool)
    (root : FPath) (sched : List FPath) (hwf : LsWf ls) :
    ((findRun ls g root sched).emitted.map FindEntry.path).Pairwise pathLt :=
  List.pairwise_map.mpr (findRun_inv ls g root sched hwf).emit_sorted

/-- Witness for `find_emits_strictly_ascending`: the tree
`/d ↦ {/d/b (file), /d/a (dir)}, /d/a ↦ {/d/a/c (file)}` with the listing
for `/d/a` arriving after the one for `/d`. -/
theorem find_emits_strictly_ascending_witness :
    LsWf [("/d".data, [("/d/b".data, false), ("/d/a".data, true)]),
          ("/d/a".data, [("/d/a/c".data, false)])] ∧
    ((findRun [("/d".data, [("/d/b".data, false), ("/d/a".data, true)]),
               ("/d/a".data, [("/d/a/c".data, false)])]
        (fun _ => true) "/d".data ["/d".data, "/d/a".data]).emitted.map
          FindEntry.path).Pairwise pathLt :=
  ⟨by decide,
    find_emits_strictly_ascending _ (fun _ => true) "/d".data
      ["/d".data, "/d/a".data] (by decide)⟩

/-! Part: Completeness of the traversal -/

theorem reaches_root_or_under {ls : ListingMap} {root p : FPath} {b : Bool}
    (hwf : LsWf ls) (h : Reaches ls root p b) :
    p = root ∨ (root ++ ['/']) <+: p := by
  induction h with
  | rootEntry => exact Or.inl rfl
  | @childEntry d c b hr hc ih =>
    have hp : (d ++ ['/']) <+: c := (child_gt ((lsChildren_wf hwf d).1 _ hc)).2
    rcases ih with rfl | hu
    · exact Or.inr hp
    · exact Or.inr (hu.trans ((List.prefix_append d ['/']).trans hp))

theorem append_cons_slash_eq {d1 d2 nm1 nm2 : List Char}
    (h : d1 ++ '/' :: nm1 = d2 ++ '/' :: nm2)
    (h1 : '/' ∉ nm1) (h2 : '/' ∉ nm2) : d1 = d2 := by
  rcases Nat.lt_trichotomy d1.length d2.length with hl | hl | hl
  · exfalso
    have hidx : (d2 ++ '/' :: nm2)[d2.length]? = some '/' := by
      rw [List.getElem?_append_right le_rfl]
      simp
    rw [← h, List.getElem?_append_right (by omega)] at hidx
    have hpos : d2.length - d1.length = (d2.length - d1.length - 1) + 1 := by
      omega
    rw [hpos, List.getElem?_cons_succ] at hidx
    exact h1 (List.mem_iff_getElem?.mpr ⟨_, hidx⟩)
  · exact (List.append_inj h hl).1
  · exfalso
    have hidx : (d1 ++ '/' :: nm1)[d1.length]? = some '/' := by
      rw [List.getElem?_append_right le_rfl]
      simp
    rw [h, List.getElem?_append_right (by omega)] at hidx
    have hpos : d1.length - d2.length = (d1.length - d2.length - 1) + 1 := by
      omega
    rw [hpos, List.getElem?_cons_succ] at hidx
    exact h2 (List.mem_iff_getElem?.mpr ⟨_, hidx⟩)

theorem nodup_fst_eq {l : List (FPath × Bool)} (hnd : (l.map Prod.fst).Nodup)
    {a : FPath} {b1 b2 : Bool} (h1 : (a, b1) ∈ l) (h2 : (a, b2) ∈ l) :
    b1 = b2 := by
  induction l with
  | nil => cases h1
  | cons x t ih =>
    simp only [List.map_cons, List.nodup_cons] at hnd
    rcases List.mem_cons.mp h1 with h1x | h1t
    · rcases List.mem_cons.mp h2 with h2x | h2t
      · have := h1x.trans h2x.symm
        exact (Prod.ext_iff.mp this).2
      · exfalso
        have hmem : a ∈ t.map Prod.fst :=
          List.mem_map_of_mem Prod.fst h2t
        rw [← h1x] at hnd
        exact hnd.1 hmem
    · rcases List.mem_cons.mp h2 with h2x | h2t
      · exfalso
        have hmem : a ∈ t.map Prod.fst :=
          List.mem_map_of_mem Prod.fst h1t
        rw [← h2x] at hnd
        exact hnd.1 hmem
      · exact ih hnd.2 h1t h2t

theorem reaches_det {ls : ListingMap} {root : FPath} (hwf : LsWf ls)
    {p : FPath} {b1 b2 : Bool} (h1 : Reaches ls root p b1)
    (h2 : Reaches ls root p b2) : b1 = b2 := by
  cases h1 with
  | rootEntry =>
    cases h2 with
    | rootEntry => rfl
    | @childEntry d _ _ hr hc =>
      exfalso
      have hp : (d ++ ['/']) <+: root :=
        (child_gt ((lsChildren_wf hwf d).1 _ hc)).2
      rcases reaches_root_or_under hwf hr with rfl | hu
      · have := hp.length_le
        simp only [List.length_append, List.length_cons, List.length_nil] at this
        omega
      · have l1 := hu.length_le
        have l2 := hp.length_le
        simp only [List.length_append, List.length_cons, List.length_nil] at l1 l2
        omega
  | @childEntry d1 _ _ hr1 hc1 =>
    cases h2 with
    | rootEntry =>
      exfalso
      have hp : (d1 ++ ['/']) <+: root :=
        (child_gt ((lsChildren_wf hwf d1).1 _ hc1)).2
      rcases reaches_root_or_under hwf hr1 with rfl | hu
      · have := hp.length_le
        simp only [List.length_append, List.length_cons, List.length_nil] at this
        omega
      · have l1 := hu.length_le
        have l2 := hp.length_le
        simp only [List.length_append, List.length_cons, List.length_nil] at l1 l2
        omega
    | @childEntry d2 _ _ hr2 hc2 =>
      obtain ⟨nm1, hn1, hs1, he1⟩ := childOk_spec ((lsChildren_wf hwf d1).1 _ hc1)
      obtain ⟨nm2, hn2, hs2, he2⟩ := childOk_spec ((lsChildren_wf hwf d2).1 _ hc2)
      have hd : d1 = d2 := append_cons_slash_eq (he1.symm.trans he2) hs1 hs2
      subst hd
      exact nodup_fst_eq (lsChildren_wf hwf d1).2 hc1 hc2

theorem findRun_complete_entries {ls : ListingMap} {g : FPath → Bool}
    {root : FPath} {sched : List FPath} (hwf : LsWf ls)
    (hdone : (findRun ls g root sched).tasks = []) :
    (findRun ls g root sched).pending = [] ∧
    (∀ p b, Reaches ls root p b ↔
      ∃ e ∈ (findRun ls g root sched).emitted, e.path = p ∧ e.is_dir = b) := by
  have inv := findRun_inv ls g root sched hwf
  have hpend : (findRun ls g root sched).pending = [] := by
    cases hp : (findRun ls g root sched).pending with
    | nil => rfl
    | cons e rest =>
      exfalso
      have hhead : (findRun ls g root sched).pending.head? = some e := by
        rw [hp]
        rfl
      have hd0 : e.done = false := inv.head_undone e hhead
      have hmem : e ∈ (findRun ls g root sched).emitted ++
          (findRun ls g root sched).pending :=
        List.mem_append_right _ (by rw [hp]; exact List.mem_cons_self e rest)
      by_cases hdir : e.is_dir = true
      · have := inv.undone_task e hmem hdir hd0
        rw [hdone] at this
        cases this
      · have := inv.file_done e hmem (by simpa using hdir)
        rw [this] at hd0
        cases hd0
  refine ⟨hpend, ?_⟩
  intro p b
  constructor
  · intro hr
    induction hr with
    | rootEntry =>
      have hroot := inv.root_mem
      unfold FindState.paths at hroot
      rw [hpend] at hroot
      simp only [List.map_nil, List.append_nil] at hroot
      obtain ⟨e, he, hep⟩ := List.mem_map.mp hroot
      have h1 := inv.reach e (List.mem_append_left _ he)
      rw [hep] at h1
      exact ⟨e, he, hep, reaches_det hwf h1 Reaches.rootEntry⟩
    | @childEntry d c b hr hc ih =>
      obtain ⟨edd, hedd, hpd, hdd⟩ := ih
      have hddone := inv.emit_done edd hedd
      have hcpaths : c ∈ FindState.paths (findRun ls g root sched) := by
        have := inv.dir_closed edd (List.mem_append_left _ hedd) hdd hddone
          (c, b) (by rw [hpd]; exact hc)
        exact this
      unfold FindState.paths at hcpaths
      rw [hpend] at hcpaths
      simp only [List.map_nil, List.append_nil] at hcpaths
      obtain ⟨e, he, hep⟩ := List.mem_map.mp hcpaths
      have h1 := inv.reach e (List.mem_append_left _ he)
      rw [hep] at h1
      exact ⟨e, he, hep, reaches_det hwf h1 (Reaches.childEntry hr hc)⟩
  · rintro ⟨e, he, rfl, rfl⟩
    exact inv.reach e (List.mem_append_left _ he)

theorem complete_run_proj_eq {ls : ListingMap} {root : FPath}
    {g1 g2 : FPath → Bool} {sched1 sched2 : List FPath} (hwf : LsWf ls)
    (h1 : (findRun ls g1 root sched1).tasks = [])
    (h2 : (findRun ls g2 root sched2).tasks = []) :
    (findRun ls g1 root sched1).emitted.map (fun e => (e.path, e.is_dir)) =
      (findRun ls g2 root sched2).emitted.map (fun e => (e.path, e.is_dir)) := by
  have inv1 := findRun_inv ls g1 root sched1 hwf
  have inv2 := findRun_inv ls g2 root sched2 hwf
  have hc1 := (findRun_complete_entries hwf h1).2
  have hc2 := (findRun_complete_entries hwf h2).2
  have hs1 : ((findRun ls g1 root sched1).emitted.map
      (fun e => (e.path, e.is_dir))).Pairwise
      (fun x y => pathLt x.1 y.1) :=
    List.pairwise_map.mpr (inv1.emit_sorted.imp (fun h => h))
  have hs2 : ((findRun ls g2 root sched2).emitted.map
      (fun e => (e.path, e.is_dir))).Pairwise
      (fun x y => pathLt x.1 y.1) :=
    List.pairwise_map.mpr (inv2.emit_sorted.imp (fun h => h))
  have hnd1 : ((findRun ls g1 root sched1).emitted.map
      (fun e => (e.path, e.is_dir))).Nodup :=
    hs1.imp (fun h heq => absurd (heq ▸ h) (pathLt_irrefl _))
  have hnd2 : ((findRun ls g2 root sched2).emitted.map
      (fun e => (e.path, e.is_dir))).Nodup :=
    hs2.imp (fun h heq => absurd (heq ▸ h) (pathLt_irrefl _))
  have hmem : ∀ x, x ∈ (findRun ls g1 root sched1).emitted.map
      (fun e => (e.path, e.is_dir)) ↔
      x ∈ (findRun ls g2 root sched2).emitted.map
        (fun e => (e.path, e.is_dir)) := by
    rintro ⟨p, b⟩
    have e1 : (p, b) ∈ (findRun ls g1 root sched1).emitted.map
        (fun e => (e.path, e.is_dir)) ↔ Reaches ls root p b := by
      rw [List.mem_map]
      constructor
      · rintro ⟨e, he, heq⟩
        obtain ⟨hp, hb⟩ := Prod.ext_iff.mp heq
        exact (hc1 p b).mpr ⟨e, he, hp, hb⟩
      · intro hr
        obtain ⟨e, he, hp, hb⟩ := (hc1 p b).mp hr
        exact ⟨e, he, by rw [hp, hb]⟩
    have e2 : (p, b) ∈ (findRun ls g2 root sched2).emitted.map
        (fun e => (e.path, e.is_dir)) ↔ Reaches ls root p b := by
      rw [List.mem_map]
      constructor
      · rintro ⟨e, he, heq⟩
        obtain ⟨hp, hb⟩ := Prod.ext_iff.mp heq
        exact (hc2 p b).mpr ⟨e, he, hp, hb⟩
      · intro hr
        obtain ⟨e, he, hp, hb⟩ := (hc2 p b).mp hr
        exact ⟨e, he, by rw [hp, hb]⟩
    rw [e1, e2]
  exact List.eq_of_perm_of_sorted
    ((List.perm_ext_iff_of_nodup hnd1 hnd2).mpr hmem) hs1 hs2

/-- C6.  On a complete run of the traversal (all queued listings processed):
the emitted abspaths are pairwise distinct; an entry `(p, is_dir)` is
emitted if and only if it is the root or reachable through listings — for
*every* verdict function, so predicates and the external filter never prune
descent and every entry of the tree is emitted exactly once; the verdict
lands only in the `good` flag of the emitted entries; and two complete runs
under different verdicts (and even different response orders) emit the same
sequence of `(abspath, is_dir)` pairs. -/
theorem find_complete_predicates_only_flag (ls : ListingMap) (root : FPath)
    (g g2 : FPath → Bool) (sched sched2 : List FPath) (hwf : LsWf ls)
    (hdone : (findRun ls g root sched).tasks = [])
    (hdone2 : (findRun ls g2 root sched2).tasks = []) :
    ((findRun ls g root sched).emitted.map FindEntry.path).Nodup ∧
    (∀ p b, Reaches ls root p b ↔
      ∃ e ∈ (findRun ls g root sched).emitted, e.path = p ∧ e.is_dir = b) ∧
    (∀ e ∈ (findRun ls g root sched).emitted,
      e.good = g e.path ∧ e.done = true) ∧
    ((findRun ls g root sched).emitted.map (fun e => (e.path, e.is_dir)) =
      (findRun ls g2 root sched2).emitted.map (fun e => (e.path, e.is_dir))) := by
  have inv := findRun_inv ls g root sched hwf
  refine ⟨?_, (findRun_complete_entries hwf hdone).2, ?_,
    complete_run_proj_eq hwf hdone hdone2⟩
  · have h := inv.nodup
    unfold FindState.paths at h
    exact h.of_append_left
  · intro e he
    exact ⟨inv.good_flag e (List.mem_append_left _ he), inv.emit_done e he⟩

/-- Witness for `find_complete_predicates_only_flag`: the same tree as the
C1 witness, with an all-true and an all-false verdict and two different
response orders. -/
theorem find_complete_predicates_only_flag_witness :
    (LsWf [("/d".data, [("/d/b".data, false), ("/d/a".data, true)]),
           ("/d/a".data, [("/d/a/c".data, false)])] ∧
     (findRun [("/d".data, [("/d/b".data, false), ("/d/a".data, true)]),
               ("/d/a".data, [("/d/a/c".data, false)])]
        (fun _ => true) "/d".data ["/d".data, "/d/a".data]).tasks = [] ∧
     (findRun [("/d".data, [("/d/b".data, false), ("/d/a".data, true)]),
               ("/d/a".data, [("/d/a/c".data, false)])]
        (fun _ => false) "/d".data ["/d".data, "/d/a".data]).tasks = []) ∧
    (((findRun [("/d".data, [("/d/b".data, false), ("/d/a".data, true)]),
                ("/d/a".data, [("/d/a/c".data, false)])]
        (fun _ => true) "/d".data ["/d".data, "/d/a".data]).emitted.map
          FindEntry.path).Nodup ∧
     (∀ p b, Reaches [("/d".data, [("/d/b".data, false), ("/d/a".data, true)]),
                      ("/d/a".data, [("/d/a/c".data, false)])] "/d".data p b ↔
       ∃ e ∈ (findRun [("/d".data, [("/d/b".data, false), ("/d/a".data, true)]),
                       ("/d/a".data, [("/d/a/c".data, false)])]
          (fun _ => true) "/d".data ["/d".data, "/d/a".data]).emitted,
         e.path = p ∧ e.is_dir = b) ∧
     (∀ e ∈ (findRun [("/d".data, [("/d/b".data, false), ("/d/a".data, true)]),
                      ("/d/a".data, [("/d/a/c".data, false)])]
        (fun _ => true) "/d".data ["/d".data, "/d/a".data]).emitted,
       e.good = (fun _ => true) e.path ∧ e.done = true) ∧
     ((findRun [("/d".data, [("/d/b".data, false), ("/d/a".data, true)]),
                ("/d/a".data, [("/d/a/c".data, false)])]
        (fun _ => true) "/d".data ["/d".data, "/d/a".data]).emitted.map
          (fun e => (e.path, e.is_dir)) =
      (findRun [("/d".data, [("/d/b".data, false), ("/d/a".data, true)]),
                ("/d/a".data, [("/d/a/c".data, false)])]
        (fun _ => false) "/d".data ["/d".data, "/d/a".data]).emitted.map
          (fun e => (e.path, e.is_dir)))) :=
  ⟨⟨by decide, by decide, by decide⟩,
    find_complete_predicates_only_flag _ "/d".data (fun _ => true) (fun _ => false)
      ["/d".data, "/d/a".data] ["/d".data, "/d/a".data]
      (by decide) (by decide) (by decide)⟩
